import Mathlib

/-!
Verification of the command-usage-stats tracker (`src/command_tracker.py`).

The Python program is shallowly embedded: its strings are modelled as
`List Char`, its `datetime` instants as `Int` (an instant on a linear
timeline; `timedelta(days=d)` becomes `d * 86400` seconds, and the
injective `isoformat`/`fromisoformat` pair is modelled by decimal
rendering/parsing of that integer), and fallible operations return
`Option`.  Each definition follows the corresponding lines of the
source file; comments cite the Python lines embedded.
-/

set_option maxRecDepth 100000

/-- Turns a Lean string literal into the `List Char` model of a Python string. -/
def strL (s : String) : List Char := s.data

/-- Whitespace as used by Python's `str.strip()` / `str.split()` / the
regex class `\s` on ASCII input: space, tab, newline, carriage return,
vertical tab, form feed. -/
def pySpace (c : Char) : Bool :=
  c = ' ' ∨ c = '\t' ∨ c = '\n' ∨ c = '\r' ∨ c = Char.ofNat 11 ∨ c = Char.ofNat 12

/-- Decimal digit, the regex class `\d` on ASCII input. -/
def pyDigit (c : Char) : Bool := '0' ≤ c ∧ c ≤ '9'

/-- Python `str.strip()`: remove leading and trailing whitespace. -/
def pyStrip (l : List Char) : List Char :=
  ((l.dropWhile pySpace).reverse.dropWhile pySpace).reverse

/-- Model of `re.sub(r'^\s*\d+\s+', '', s)` (command_tracker.py line 51):
remove the leftmost (anchored) match of optional whitespace, then at
least one digit, then at least one whitespace character; if the pattern
does not match at the start, the string is unchanged.  The character
classes `\s` and `\d` are disjoint, so greedy matching is maximal runs. -/
def subOrdinal (l : List Char) : List Char :=
  let l1 := l.dropWhile pySpace
  let ds := l1.takeWhile pyDigit
  let l2 := l1.dropWhile pyDigit
  let ws := l2.takeWhile pySpace
  if ds ≠ [] ∧ ws ≠ [] then l2.dropWhile pySpace else l

/-- Worker for `pySplit`; the fuel argument only bounds the recursion
depth (each step consumes at least the first character of a token) so
that the definition reduces by ordinary structural recursion. -/
def pySplitAux : Nat → List Char → List (List Char)
  | 0, _ => []
  | fuel + 1, l =>
    match l.dropWhile pySpace with
    | [] => []
    | c :: rest =>
      (c :: rest.takeWhile (fun x => ¬ pySpace x)) ::
        pySplitAux fuel (rest.dropWhile (fun x => ¬ pySpace x))

/-- Python `str.split()` with no separator: split on runs of whitespace,
discarding empty tokens. -/
def pySplit (l : List Char) : List (List Char) := pySplitAux l.length l

/-- One recorded invocation: the dict built at command_tracker.py lines
60–65.  The spec calls `full_command` "`full_line`".  `timestamp` is the
instant produced by `datetime.now()`, modelled as an `Int`. -/
structure Entry where
  command : List Char
  base_command : List Char
  timestamp : Int
  full_command : List Char
deriving DecidableEq

/-- The normalization part of `log_command` (command_tracker.py lines
44–65): strip the raw line, drop a history ordinal, strip again; an
empty result produces no entry; otherwise build the entry dict, whose
`full_command` field holds the line as it stands after line 48's
`command_line.strip()`.  `now` stands for `datetime.now()`. -/
def normalizeLine (command_line : List Char) (now : Int) : Option Entry :=
  let command_line := pyStrip command_line
  let command := pyStrip (subOrdinal command_line)
  if command = [] then none
  else
    let base_command :=
      match pySplit command with
      | [] => command
      | t :: _ => t
    some { command := command, base_command := base_command,
           timestamp := now, full_command := command_line }

/-- The append-and-retention part of `log_command` (command_tracker.py
lines 67–71): append the entry, then keep only the last 10000 entries.
Python's `self.commands[-10000:]` is the suffix of length 10000, i.e.
`drop (length - 10000)`. -/
def append_and_truncate (commands : List Entry) (entry : Entry) : List Entry :=
  let commands := commands ++ [entry]
  if commands.length > 10000 then commands.drop (commands.length - 10000) else commands

/-- `log_command` (command_tracker.py lines 44–73) acting on the
in-memory sequence `self.commands`: normalize the raw line; on a blank
result return the store unchanged, otherwise append and truncate.
(The subsequent `save_commands()` call persists the result; persistence
is modelled separately.) -/
def log_command (commands : List Entry) (command_line : List Char) (now : Int) :
    List Entry :=
  match normalizeLine command_line now with
  | none => commands
  | some entry => append_and_truncate commands entry

theorem append_and_truncate_eq (cs : List Entry) (e : Entry) :
    append_and_truncate cs e =
      (cs ++ [e]).drop ((cs ++ [e]).length - min (cs ++ [e]).length 10000) := by
  unfold append_and_truncate
  have hidx : (cs ++ [e]).length - min (cs ++ [e]).length 10000 =
      if (cs ++ [e]).length > 10000 then (cs ++ [e]).length - 10000 else 0 := by
    by_cases h : (cs ++ [e]).length > 10000
    · rw [if_pos h]
      omega
    · rw [if_neg h]
      omega
  by_cases h : (cs ++ [e]).length > 10000
  · rw [if_pos h, hidx, if_pos h]
  · rw [if_neg h, hidx, if_neg h, List.drop_zero]

theorem length_append_and_truncate (cs : List Entry) (e : Entry) :
    (append_and_truncate cs e).length = min ((cs ++ [e]).length) 10000 := by
  rw [append_and_truncate_eq, List.length_drop]
  omega

theorem drop_chain (Y es : List Entry) (d : Nat) (hd : d ≤ Y.length) (k : Nat) :
    List.drop k (Y.drop d ++ es) = List.drop (d + k) (Y ++ es) := by
  rw [← List.drop_append_of_le_length hd, List.drop_drop]

theorem drop_congr (i1 i2 : Nat) (l1 l2 : List Entry) (hi : i1 = i2) (hl : l1 = l2) :
    List.drop i1 l1 = List.drop i2 l2 := by
  subst hi
  subst hl
  rfl

theorem drop_min_step (cs : List Entry) (e : Entry) (es : List Entry) :
    List.drop ((List.drop ((cs ++ [e]).length - min (cs ++ [e]).length 10000) (cs ++ [e]) ++ es).length -
        min (List.drop ((cs ++ [e]).length - min (cs ++ [e]).length 10000) (cs ++ [e]) ++ es).length 10000)
      (List.drop ((cs ++ [e]).length - min (cs ++ [e]).length 10000) (cs ++ [e]) ++ es) =
    List.drop ((cs ++ e :: es).length - min (cs ++ e :: es).length 10000) (cs ++ e :: es) :=
  (drop_chain (cs ++ [e]) es _ (by omega) _).trans
    (drop_congr _ _ _ _
      (by simp only [List.length_drop, List.length_append, List.length_cons, List.length_nil]
          omega)
      (List.append_assoc cs [e] es))

theorem foldl_append_and_truncate (es : List Entry) :
    ∀ cs : List Entry, cs.length ≤ 10000 →
    es.foldl append_and_truncate cs =
      (cs ++ es).drop ((cs ++ es).length - min (cs ++ es).length 10000) := by
  induction es with
  | nil =>
    intro cs h
    simp only [List.foldl_nil, List.append_nil]
    have hz : cs.length - min cs.length 10000 = 0 := by omega
    rw [hz, List.drop_zero]
  | cons e es ih =>
    intro cs h
    have hlen : (append_and_truncate cs e).length ≤ 10000 := by
      rw [length_append_and_truncate]
      omega
    have step : List.foldl append_and_truncate cs (e :: es) =
        List.foldl append_and_truncate (append_and_truncate cs e) es := rfl
    rw [step, ih _ hlen, append_and_truncate_eq]
    exact drop_min_step cs e es

example : pyStrip (strL " 42  ls -la ") = strL "42  ls -la" := by decide
example : normalizeLine (strL " 42  ls -la ") 7 =
    some ⟨strL "ls -la", strL "ls", 7, strL "42  ls -la"⟩ := by decide
example : normalizeLine (strL "   ") 7 = none := by decide
example : normalizeLine (strL "42  ") 7 =
    some ⟨strL "42", strL "42", 7, strL "42"⟩ := by decide
example : normalizeLine (strL "12 34 ls") 7 =
    some ⟨strL "34 ls", strL "34", 7, strL "12 34 ls"⟩ := by decide

/-- Worker for `firstKeys`: `seen` holds the keys already emitted. -/
def firstKeysAux [DecidableEq κ] (seen : List κ) : List κ → List κ
  | [] => []
  | a :: rest =>
    if a ∈ seen then firstKeysAux seen rest else a :: firstKeysAux (a :: seen) rest

/-- The distinct elements of `l` in order of first occurrence — the key
order of a Python `dict`/`Counter` filled by a left-to-right pass. -/
def firstKeys [DecidableEq κ] (l : List κ) : List κ := firstKeysAux [] l

/-- Number of occurrences of `a` in a list. -/
def countD [DecidableEq κ] (a : κ) : List κ → Nat
  | [] => 0
  | b :: l => (if b = a then 1 else 0) + countD a l

/-- Model of `dict(Counter(gen))` (command_tracker.py lines 88–89, 102–103)
as an association list: Python's `Counter` is a dict whose keys appear in
first-encounter order, mapping each key to its number of occurrences. -/
def counterItems [DecidableEq κ] (l : List κ) : List (κ × Nat) :=
  (firstKeys l).map (fun k => (k, countD k l))

/-- The running maximum of the loop at command_tracker.py lines 92–97:
`if base not in last_used or timestamp > last_used[base]`. -/
def pyMaxAux (a : Int) (l : List Int) : Int :=
  l.foldl (fun acc t => if t > acc then t else acc) a

/-- Maximum of a list of instants, `none` on the empty list. -/
def pyMaxOfList : List Int → Option Int
  | [] => none
  | t :: ts => some (pyMaxAux t ts)

/-- The `last_used` value the loop at lines 92–97 ends with for base `b`:
the maximum timestamp among the entries whose `base_command` is `b`. -/
def lastUsedVal (l : List Entry) (b : List Char) : Option Int :=
  pyMaxOfList ((l.filter (fun e => e.base_command = b)).map (fun e => e.timestamp))

/-- The `last_used` dict (lines 92–97) as an association list: keys in
first-occurrence order of `base_command`, each mapped to the most recent
timestamp of that base. -/
def lastUsedItems (l : List Entry) : List (List Char × Int) :=
  (firstKeys (l.map (fun e => e.base_command))).filterMap
    (fun b => (lastUsedVal l b).map (fun m => (b, m)))

/-- The dict returned by `get_stats` (command_tracker.py lines 99–106).
The four mapping fields are Python dicts, modelled as association lists
whose key order is the dict's insertion order. -/
structure Stats where
  total_commands : Nat
  unique_base_commands : Nat
  base_command_counts : List (List Char × Nat)
  full_command_counts : List (List Char × Nat)
  last_used : List (List Char × Int)
  period_days : Option Int
deriving DecidableEq

/-- `timedelta(days=d)` in seconds, the unit of the `Int` timeline. -/
def timedeltaDays (d : Int) : Int := d * 86400

/-- `get_stats` (command_tracker.py lines 75–106).  `days` models the
`Optional[int]` parameter; Python's `if days:` is false for both `None`
and `0`, so filtering happens only for a non-zero `some`.  The filter
keeps entries with `timestamp >= now - timedelta(days=days)`. -/
def get_stats (commands : List Entry) (now : Int) (days : Option Int) : Stats :=
  let commands_to_analyze :=
    match days with
    | some d =>
      if d ≠ 0 then commands.filter (fun e => e.timestamp ≥ now - timedeltaDays d)
      else commands
    | none => commands
  { total_commands := commands_to_analyze.length
    unique_base_commands := (counterItems (commands_to_analyze.map (fun e => e.base_command))).length
    base_command_counts := counterItems (commands_to_analyze.map (fun e => e.base_command))
    full_command_counts := counterItems (commands_to_analyze.map (fun e => e.command))
    last_used := lastUsedItems commands_to_analyze
    period_days := days }

example :
    get_stats [⟨strL "ls -la", strL "ls", 5, strL "ls -la"⟩,
               ⟨strL "ls", strL "ls", 9, strL "ls"⟩,
               ⟨strL "git st", strL "git", 7, strL "git st"⟩] 10 none =
    { total_commands := 3
      unique_base_commands := 2
      base_command_counts := [(strL "ls", 2), (strL "git", 1)]
      full_command_counts := [(strL "ls -la", 1), (strL "ls", 1), (strL "git st", 1)]
      last_used := [(strL "ls", 9), (strL "git", 7)]
      period_days := none } := by decide

example : (get_stats [⟨strL "ls", strL "ls", 5, strL "ls"⟩] 86000 (some 1)).total_commands
    = 1 := by decide
example : (get_stats [⟨strL "ls", strL "ls", 5, strL "ls"⟩] 87000 (some (-1))).total_commands
    = 0 := by decide
example : (get_stats [⟨strL "ls", strL "ls", 5, strL "ls"⟩] 87000 (some 0)).total_commands
    = 1 := by decide

/-- Python `str.lower()` restricted to ASCII letters (the inputs the
program manipulates); other characters are unchanged. -/
def pyLower (c : Char) : Char :=
  if 'A' ≤ c ∧ c ≤ 'Z' then Char.ofNat (c.toNat + 32) else c

/-- Lower-cased string, `s.lower()`. -/
def lowerStr (l : List Char) : List Char := l.map pyLower

/-- Does `hay` begin with `needle`? -/
def beginsWith : List Char → List Char → Bool
  | [], _ => true
  | _ :: _, [] => false
  | p :: ps, c :: cs => p = c && beginsWith ps cs

/-- Python's `needle in hay` on strings: contiguous substring test. -/
def strIn (needle : List Char) : List Char → Bool
  | [] => needle.isEmpty
  | c :: rest => beginsWith needle (c :: rest) || strIn needle rest

/-- Stable descending insertion by a numeric key: the new element goes
before the first existing element with a strictly smaller key, hence
after all elements with an equal key — exactly where Python's stable
`sorted(..., reverse=True)` leaves elements that compare equal. -/
def insertDescBy (key : α → Nat) (x : α) : List α → List α
  | [] => [x]
  | y :: ys => if key y < key x then x :: y :: ys else y :: insertDescBy key x ys

/-- Python `sorted(l, key=key, reverse=True)`: stable descending sort. -/
def sortDescBy (key : α → Nat) (l : List α) : List α :=
  l.foldl (fun acc x => insertDescBy key x acc) []

/-- `lexLe a b` is Python's `a <= b` on strings: lexicographic
comparison by code point. -/
def lexLe : List Char → List Char → Bool
  | [], _ => true
  | _ :: _, [] => false
  | a :: xs, b :: ys => if a < b then true else if b < a then false else lexLe xs ys

/-- Stable ascending insertion with respect to `lexLe`. -/
def insertAscLex (x : List Char) : List (List Char) → List (List Char)
  | [] => [x]
  | y :: ys => if lexLe y x then y :: insertAscLex x ys else x :: y :: ys

/-- Python `sorted(l)` on strings: stable ascending lexicographic sort. -/
def sortAscLex (l : List (List Char)) : List (List Char) :=
  l.foldl (fun acc x => insertAscLex x acc) []

/-- One printed group of `search_commands` output: the base command, its
number of matching occurrences (matchCount), the (at most 5) distinct full command
strings shown, and the count announced by the `... and K more` line
(`0` when that line is not printed). -/
structure SearchGroup where
  base : List Char
  matchCount : Nat
  shown : List (List Char)
  more : Nat
deriving DecidableEq

/-- `search_commands` (command_tracker.py lines 162–191) as the data it
prints: filter entries whose `command` or `base_command` contains the
query case-insensitively; group them by `base_command` (dict insertion
order = first occurrence); order groups by descending match count
(stable `sorted(..., key=len, reverse=True)`); within a group show the
distinct commands (`set(...)`) in ascending `sorted` order, capped at 5,
with the excess reported by the `... and K more` line. -/
def search_commands (commands : List Entry) (query : List Char) : List SearchGroup :=
  let matching := commands.filter
    (fun c => strIn (lowerStr query) (lowerStr c.command) ||
              strIn (lowerStr query) (lowerStr c.base_command))
  let grouped := (firstKeys (matching.map (fun c => c.base_command))).map
    (fun b => (b, matching.filter (fun c => c.base_command = b)))
  let sortedGroups := sortDescBy (fun g => g.2.length) grouped
  sortedGroups.map (fun g =>
    let uniqueCommands := sortAscLex (firstKeys (g.2.map (fun c => c.command)))
    { base := g.1
      matchCount := g.2.length
      shown := uniqueCommands.take 5
      more := if uniqueCommands.length > 5 then uniqueCommands.length - 5 else 0 })

example :
    search_commands
      [⟨strL "git status", strL "git", 1, strL "git status"⟩,
       ⟨strL "git add .", strL "git", 2, strL "git add ."⟩,
       ⟨strL "ls", strL "ls", 3, strL "ls"⟩] (strL "git") =
    [{ base := strL "git", matchCount := 2,
       shown := [strL "git add .", strL "git status"], more := 0 }] := by decide

example :
    search_commands
      [⟨strL "LS -la", strL "LS", 1, strL "LS -la"⟩] (strL "ls") =
    [{ base := strL "LS", matchCount := 1, shown := [strL "LS -la"], more := 0 }] := by
  decide

/-- The character of a single decimal digit. -/
def digitChar10 (n : Nat) : Char := Char.ofNat (48 + n)

/-- Decimal digit test on a character. -/
def isDigit10 (c : Char) : Bool := 48 ≤ c.toNat ∧ c.toNat ≤ 57

/-- Digits of `n` from least to most significant.  The fuel argument
only bounds the recursion depth (`n` itself always suffices, since `n`
shrinks at every step) so that the definition reduces by structural
recursion. -/
def natToCharsFuel : Nat → Nat → List Char
  | 0, _ => []
  | fuel + 1, n =>
    if n < 10 then [digitChar10 n] else digitChar10 (n % 10) :: natToCharsFuel fuel (n / 10)

/-- Decimal rendering of a natural number. -/
def natToChars (n : Nat) : List Char := (natToCharsFuel (n + 1) n).reverse

/-- Decimal rendering of an integer (with `-` sign when negative).
This models Python's `datetime.isoformat()`: an injective textual
rendering of the instant, inverted exactly by `fromisoformat`. -/
def intToChars (i : Int) : List Char :=
  if i < 0 then '-' :: natToChars i.natAbs else natToChars i.natAbs

/-- Parse an all-digits string back into a natural number. -/
def parseNatChars (l : List Char) : Option Nat :=
  if l = [] then none
  else if l.all isDigit10 then
    some (l.foldl (fun acc c => acc * 10 + (c.toNat - 48)) 0)
  else none

/-- Parse a decimal integer, the model of `datetime.fromisoformat`. -/
def parseIntChars : List Char → Option Int
  | [] => none
  | c :: rest =>
    if c = '-' then (parseNatChars rest).map (fun n => -(Int.ofNat n))
    else (parseNatChars (c :: rest)).map (fun n => Int.ofNat n)

/-- Lower-case hexadecimal digit character, as Python's `json` emits in
`\uXXXX` escapes. -/
def hexDigitChar (n : Nat) : Char :=
  if n < 10 then Char.ofNat (48 + n) else Char.ofNat (87 + n)

/-- Four-digit lower-case hexadecimal rendering of `n < 65536`. -/
def hex4 (n : Nat) : List Char :=
  [hexDigitChar (n / 4096 % 16), hexDigitChar (n / 256 % 16),
   hexDigitChar (n / 16 % 16), hexDigitChar (n % 16)]

/-- Value of one hexadecimal digit (either case), as `json.loads` accepts. -/
def hexDigitVal (c : Char) : Option Nat :=
  if 48 ≤ c.toNat ∧ c.toNat ≤ 57 then some (c.toNat - 48)
  else if 97 ≤ c.toNat ∧ c.toNat ≤ 102 then some (c.toNat - 87)
  else if 65 ≤ c.toNat ∧ c.toNat ≤ 70 then some (c.toNat - 55)
  else none

/-- Value of four hexadecimal digits. -/
def hex4Val (a b c d : Char) : Option Nat :=
  match hexDigitVal a, hexDigitVal b, hexDigitVal c, hexDigitVal d with
  | some x, some y, some z, some w => some (x * 4096 + y * 256 + z * 16 + w)
  | _, _, _, _ => none

/-- How Python's `json.dump` (default `ensure_ascii=True`) escapes one
character inside a JSON string: `"` and `\` and the named control
characters get two-character escapes; every other character outside
`0x20`–`0x7E` becomes `\uXXXX` (a surrogate pair for code points above
`0xFFFF`); the rest stand for themselves. -/
def escapeChar (c : Char) : List Char :=
  if c = '"' then ['\\', '"']
  else if c = '\\' then ['\\', '\\']
  else if c = '\n' then ['\\', 'n']
  else if c = '\r' then ['\\', 'r']
  else if c = '\t' then ['\\', 't']
  else if c = Char.ofNat 8 then ['\\', 'b']
  else if c = Char.ofNat 12 then ['\\', 'f']
  else if c.toNat < 32 ∨ 127 ≤ c.toNat then
    if c.toNat < 65536 then '\\' :: 'u' :: hex4 c.toNat
    else
      ('\\' :: 'u' :: hex4 (55296 + (c.toNat - 65536) / 1024)) ++
      ('\\' :: 'u' :: hex4 (56320 + (c.toNat - 65536) % 1024))
  else [c]

/-- Escape a whole string (contents between the quotes). -/
def escapeStr (s : List Char) : List Char := s.flatMap escapeChar

/-- A serialized JSON string token: quotes around the escaped contents. -/
def jsonStringChars (s : List Char) : List Char := '"' :: escapeStr s ++ ['"']

/-- The two-character escapes `json.loads` resolves (`\uXXXX` is
handled separately). -/
def escCharVal (e : Char) : Option Char :=
  if e = 'n' then some '\n'
  else if e = 't' then some '\t'
  else if e = 'r' then some '\r'
  else if e = '"' ∨ e = '\\' ∨ e = '/' then some e
  else if e = 'b' then some (Char.ofNat 8)
  else if e = 'f' then some (Char.ofNat 12)
  else none

/-- Continuation of decoding a `\uXXXX` escape whose value is `n`,
with `rest2` the input following the four hex digits: a high surrogate
must be followed by a low surrogate and the pair is combined; a lone
low surrogate is rejected; otherwise `n` is the code point.  (The
serializer in this file never emits lone surrogates, which Lean's
`Char` cannot represent.) -/
def decodeU (rest2 : List Char) (n : Nat) : Option (Char × List Char) :=
  if 55296 ≤ n ∧ n ≤ 56319 then
    match rest2 with
    | s1 :: s2 :: a2 :: b2 :: x2 :: d2 :: rest3 =>
      if s1 = '\\' ∧ s2 = 'u' then
        match hex4Val a2 b2 x2 d2 with
        | some n2 =>
          if 56320 ≤ n2 ∧ n2 ≤ 57343 then
            some (Char.ofNat ((n - 55296) * 1024 + (n2 - 56320) + 65536), rest3)
          else none
        | none => none
      else none
    | _ => none
  else if 56320 ≤ n ∧ n ≤ 57343 then none
  else some (Char.ofNat n, rest2)

/-- Decode the escape sequence following a backslash, as `json.loads`
does: the decoded character and the input remaining after the escape. -/
def decodeEscape (l : List Char) : Option (Char × List Char) :=
  match l with
  | 'u' :: a :: b :: x :: d :: rest2 =>
    match hex4Val a b x d with
    | none => none
    | some n => decodeU rest2 n
  | e :: rest2 =>
    match escCharVal e with
    | some ec => some (ec, rest2)
    | none => none
  | [] => none

/-- Scan the contents of a JSON string up to the closing quote,
resolving escapes as `json.loads` does, returning the decoded contents
and the input remaining after the closing quote.  The fuel argument
only bounds the recursion depth (every step consumes at least one input
character, so the input length suffices). -/
def unescapeAux : Nat → List Char → Option (List Char × List Char)
  | 0, _ => none
  | fuel + 1, l =>
    match l with
    | [] => none
    | c :: rest =>
      if c = '"' then some ([], rest)
      else if c = '\\' then
        match decodeEscape rest with
        | some p => (unescapeAux fuel p.2).map (fun q => (p.1 :: q.1, q.2))
        | none => none
      else (unescapeAux fuel rest).map (fun p => (c :: p.1, p.2))

/-- Parse a JSON string token: an opening quote, then the escaped
contents up to the closing quote. -/
def parseJsonString : List Char → Option (List Char × List Char)
  | '"' :: rest => unescapeAux (rest.length + 1) rest
  | _ => none

example : parseIntChars (intToChars (-35)) = some (-35) := by decide
example : parseIntChars (intToChars 0) = some 0 := by decide
example : parseJsonString (jsonStringChars (strL "a\"b\\c\td") ++ strL "xy") =
    some (strL "a\"b\\c\td", strL "xy") := by decide
example : parseJsonString (jsonStringChars [Char.ofNat 955] ++ strL "z") =
    some ([Char.ofNat 955], strL "z") := by decide
example : parseJsonString (jsonStringChars [Char.ofNat 128512]) =
    some ([Char.ofNat 128512], []) := by decide
example : escapeChar (Char.ofNat 128512) = strL "\\ud83d\\ude00" := by decide

/-- One entry dict as `json.dump(..., indent=2)` lays it out inside the
list (keys in the insertion order of command_tracker.py lines 60–65;
the timestamp string is the rendering of the instant). -/
def renderEntry (e : Entry) : List Char :=
  strL "  \x7b\n    \"command\": " ++ jsonStringChars e.command ++
  strL ",\n    \"base_command\": " ++ jsonStringChars e.base_command ++
  strL ",\n    \"timestamp\": " ++ jsonStringChars (intToChars e.timestamp) ++
  strL ",\n    \"full_command\": " ++ jsonStringChars e.full_command ++
  strL "\n  \x7d"

/-- The list body: entries joined by `",\n"`. -/
def renderEntries : List Entry → List Char
  | [] => []
  | [e] => renderEntry e
  | e :: rest => renderEntry e ++ strL ",\n" ++ renderEntries rest

/-- `save_commands` (command_tracker.py lines 39–42): the exact text
`json.dump(self.commands, f, indent=2)` writes to `commands.json`. -/
def save_commands (commands : List Entry) : List Char :=
  if commands = [] then strL "[]"
  else strL "[\n" ++ renderEntries commands ++ strL "\n]"

/-- Consume an expected literal text from the front of the input. -/
def expectLit : List Char → List Char → Option (List Char)
  | [], l => some l
  | _ :: _, [] => none
  | p :: ps, c :: cs => if p = c then expectLit ps cs else none

/-- Parse one entry dict in the layout `renderEntry` emits, returning
the entry and the remaining input. -/
def parseEntry (l : List Char) : Option (Entry × List Char) :=
  (expectLit (strL "  \x7b\n    \"command\": ") l).bind fun l1 =>
  (parseJsonString l1).bind fun p1 =>
  (expectLit (strL ",\n    \"base_command\": ") p1.2).bind fun l3 =>
  (parseJsonString l3).bind fun p2 =>
  (expectLit (strL ",\n    \"timestamp\": ") p2.2).bind fun l5 =>
  (parseJsonString l5).bind fun p3 =>
  (parseIntChars p3.1).bind fun ts =>
  (expectLit (strL ",\n    \"full_command\": ") p3.2).bind fun l7 =>
  (parseJsonString l7).bind fun p4 =>
  (expectLit (strL "\n  \x7d") p4.2).map fun l9 =>
  (⟨p1.1, p2.1, ts, p4.1⟩, l9)

/-- Parse the entries of a non-empty list body followed by the closing
`"\n]"` and end of input.  The fuel argument only bounds the recursion
depth; every iteration consumes at least one character, so the input
length suffices. -/
def parseEntriesAux : Nat → List Char → Option (List Entry)
  | 0, _ => none
  | fuel + 1, l =>
    (parseEntry l).bind fun p =>
      match expectLit (strL ",\n") p.2 with
      | some r2 => (parseEntriesAux fuel r2).map (fun es => p.1 :: es)
      | none =>
        match expectLit (strL "\n]") p.2 with
        | some r3 => if r3 = [] then some [p.1] else none
        | none => none

/-- `load_commands` (command_tracker.py lines 31–37): parse the text of
`commands.json` back into the entry sequence.  `none` models the
`json.JSONDecodeError` that `json.load` raises on malformed input (the
`CorruptStateError` of the spec); the grammar accepted is the layout
`save_commands` emits. -/
def load_commands (l : List Char) : Option (List Entry) :=
  if l = strL "[]" then some []
  else (expectLit (strL "[\n") l).bind fun r => parseEntriesAux l.length r

example : load_commands (save_commands []) = some [] := by decide
example : load_commands [] = none := by decide
example : load_commands (strL "[") = none := by decide

/-- Exactly two decimal digits, for the fractional part of `%.2f`. -/
def twoDigits (k : Nat) : List Char := [digitChar10 (k / 10 % 10), digitChar10 (k % 10)]

/-- The percentage cell `f"{percentage:.2f}"` of command_tracker.py
lines 213–215, where `percentage = count / total * 100` (and `0` when
`total == 0`).  The float value and its round-to-nearest formatting are
modelled by the rational rounded to hundredths; the claims proved here
depend only on the rendered shape (decimal digits and one period). -/
def pctChars (count total : Nat) : List Char :=
  if total = 0 then strL "0.00"
  else
    let p := (count * 10000 + total / 2) / total
    natToChars (p / 100) ++ '.' :: twoDigits (p % 100)

/-- Python dict lookup on an association list: the value at the first
(and, for the dicts built here, only) occurrence of the key. -/
def lookupD [DecidableEq κ] : κ → List (κ × β) → Option β
  | _, [] => none
  | a, (k, b) :: es => if a = k then some b else lookupD a es

/-- The `Last Used` cell: `stats['last_used'].get(cmd, '')`, the
rendered instant or the empty string. -/
def csvLastUsed (stats : Stats) (cmd : List Char) : List Char :=
  match lookupD cmd stats.last_used with
  | some t => intToChars t
  | none => []

/-- One CSV data row (command_tracker.py line 215):
`f"{cmd},{count},{percentage:.2f},{last}"` — plain comma joins, no
quoting or escaping of the command text. -/
def csvRow (stats : Stats) (p : List Char × Nat) : List Char :=
  p.1 ++ ',' :: natToChars p.2 ++ ',' ::
    pctChars p.2 stats.total_commands ++ ',' :: csvLastUsed stats p.1

/-- The CSV export of `export_stats` (command_tracker.py lines 203–217)
as its list of lines: the header, then one row per base command in
descending count order (`sorted(..., key=lambda x: x[1], reverse=True)`);
the final output joins these lines with newlines.  `export_stats` calls
`get_stats()` with no window. -/
def export_csv_lines (commands : List Entry) (now : Int) : List (List Char) :=
  let stats := get_stats commands now none
  let sortedCommands := sortDescBy (fun p => p.2) stats.base_command_counts
  strL "Command,Count,Percentage,Last Used" :: sortedCommands.map (csvRow stats)

/-- Split a line at every comma: the comma-separated fields of a CSV
row as a consumer sees them. -/
def commaFields : List Char → List (List Char)
  | [] => [[]]
  | c :: rest =>
    if c = ',' then [] :: commaFields rest
    else
      match commaFields rest with
      | f :: fs => (c :: f) :: fs
      | [] => [[c]]

/-- The on-disk contents of `commands.json` visible during
`save_commands` (command_tracker.py lines 39–42): `open(file, 'w')`
truncates the file to empty at open, then `json.dump` writes the new
text.  A failure between those two steps leaves the middle state (a
crash during the write can also leave any prefix of the new text; the
truncated state alone already decides the atomicity claim). -/
def save_commands_states (old : List Char) (commands : List Entry) : List (List Char) :=
  [old, [], save_commands commands]

/-- Modelled from the spec: the normalization algorithm in the order
the claim words it — "strips a leading run of decimal digits followed
by whitespace, then strips surrounding whitespace" — applied to the raw
line as given.  Used only to compare that wording against the source's
`normalizeLine`. -/
def dropOrdinalSpec (line : List Char) : List Char :=
  let ds := line.takeWhile pyDigit
  let l2 := line.dropWhile pyDigit
  let ws := l2.takeWhile pySpace
  if ds ≠ [] ∧ ws ≠ [] then l2.dropWhile pySpace else line

/-- Modelled from the spec: ordinal strip first, whitespace strip second. -/
def normalizeSpecOrder (line : List Char) : List Char := pyStrip (dropOrdinalSpec line)

/-- Equality of two Python dicts represented as association lists:
`d1 == d2` in Python compares key sets and values, ignoring insertion
order. -/
def dictEq [DecidableEq κ] (d1 d2 : List (κ × β)) : Prop :=
  ∀ k, lookupD k d1 = lookupD k d2

/-- Python `==` on two `get_stats` results: field-wise equality, with
the dict fields compared as dicts. -/
def statsPyEq (s1 s2 : Stats) : Prop :=
  s1.total_commands = s2.total_commands ∧
  s1.unique_base_commands = s2.unique_base_commands ∧
  dictEq s1.base_command_counts s2.base_command_counts ∧
  dictEq s1.full_command_counts s2.full_command_counts ∧
  dictEq s1.last_used s2.last_used ∧
  s1.period_days = s2.period_days

example :
    export_csv_lines [⟨strL "ls -la", strL "ls", 5, strL "ls -la"⟩] 9 =
    [strL "Command,Count,Percentage,Last Used", strL "ls,1,100.00,5"] := by decide
example :
    export_csv_lines [⟨strL "a,b c", strL "a,b", 5, strL "a,b c"⟩] 9 =
    [strL "Command,Count,Percentage,Last Used", strL "a,b,1,100.00,5"] := by decide
example : (commaFields (strL "a,b,1,100.00,5")).length = 5 := by decide
example : normalizeSpecOrder (strL " 42  ls -la ") = strL "42  ls -la" := by decide

/-- A shared concrete entry used by witnesses. -/
def entryLs : Entry := ⟨strL "ls", strL "ls", 5, strL "ls"⟩

/-- Claim C4: after an append pushes the sequence over the capacity
10000, the store holds exactly the most recent 10000 events in their
original relative order; appending 10001 events to the empty store
leaves exactly 10000 — namely all but the first. -/
theorem claim_C4 :
    (∀ (cs : List Entry) (e : Entry), 10000 < (cs ++ [e]).length →
      append_and_truncate cs e = (cs ++ [e]).drop ((cs ++ [e]).length - 10000) ∧
      (append_and_truncate cs e).length = 10000) ∧
    (∀ es : List Entry, es.length = 10001 →
      es.foldl append_and_truncate [] = es.drop 1 ∧
      (es.foldl append_and_truncate []).length = 10000) := by
  constructor
  · intro cs e h
    constructor
    · rw [append_and_truncate_eq]
      have hidx : (cs ++ [e]).length - min (cs ++ [e]).length 10000 =
          (cs ++ [e]).length - 10000 := by omega
      rw [hidx]
    · rw [length_append_and_truncate]
      omega
  · intro es h
    have h0 : (([] : List Entry)).length ≤ 10000 := by simp
    have hfold := foldl_append_and_truncate es [] h0
    simp only [List.nil_append] at hfold
    rw [hfold]
    have hidx : es.length - min es.length 10000 = 1 := by omega
    rw [hidx, List.length_drop]
    exact ⟨rfl, by omega⟩

/-- Witness for C4 at a concrete input. -/
theorem claim_C4_witness :
    (append_and_truncate (List.replicate 10000 entryLs) entryLs).length = 10000 ∧
    (List.replicate 10001 entryLs).foldl append_and_truncate [] =
      (List.replicate 10001 entryLs).drop 1 :=
  ⟨(claim_C4.1 _ entryLs (by
      rw [List.length_append, List.length_replicate, List.length_cons, List.length_nil]
      omega)).2,
   (claim_C4.2 _ (by rw [List.length_replicate])).1⟩

theorem char_toNat_ofNat (n : Nat) (h : n.isValidChar) : (Char.ofNat n).toNat = n := by
  unfold Char.ofNat
  rw [dif_pos h]
  unfold Char.ofNatAux Char.toNat
  simp [UInt32.toNat, BitVec.ofNatLt]

theorem digitChar10_toNat (n : Nat) (h : n < 10) : (digitChar10 n).toNat = 48 + n := by
  unfold digitChar10
  exact char_toNat_ofNat _ (Or.inl (by omega))

theorem isDigit10_digitChar10 (n : Nat) (h : n < 10) : isDigit10 (digitChar10 n) = true := by
  simp only [isDigit10, digitChar10_toNat n h, decide_eq_true_eq]
  omega

theorem natToCharsFuel_ne_nil (fuel n : Nat) (h : 0 < fuel) : natToCharsFuel fuel n ≠ [] := by
  cases fuel with
  | zero => omega
  | succ f =>
    unfold natToCharsFuel
    split <;> simp

theorem natToCharsFuel_all_digits (fuel : Nat) :
    ∀ n, n < fuel → (natToCharsFuel fuel n).all isDigit10 = true := by
  induction fuel with
  | zero => intro n h; omega
  | succ f ih =>
    intro n h
    unfold natToCharsFuel
    by_cases hn : n < 10
    · rw [if_pos hn]
      simp [isDigit10_digitChar10 n hn]
    · rw [if_neg hn]
      have h10 : n % 10 < 10 := Nat.mod_lt _ (by omega)
      have hdiv : n / 10 < f := by omega
      simp [isDigit10_digitChar10 _ h10, ih _ hdiv]

theorem natToCharsFuel_foldr (fuel : Nat) :
    ∀ n acc, n < fuel →
    (natToCharsFuel fuel n).foldr (fun c a => a * 10 + (c.toNat - 48)) acc =
      acc * 10 ^ (natToCharsFuel fuel n).length + n := by
  induction fuel with
  | zero => intro n acc h; omega
  | succ f ih =>
    intro n acc h
    unfold natToCharsFuel
    by_cases hn : n < 10
    · rw [if_pos hn]
      simp [digitChar10_toNat n hn]
    · rw [if_neg hn]
      have h10 : n % 10 < 10 := Nat.mod_lt _ (by omega)
      have hdiv : n / 10 < f := by omega
      simp only [List.foldr_cons, List.length_cons]
      rw [ih (n / 10) acc hdiv, digitChar10_toNat _ h10, pow_succ, ← Nat.mul_assoc]
      have hgen : ∀ A : Nat, (A + n / 10) * 10 + (48 + n % 10 - 48) = A * 10 + n := by
        intro A
        omega
      exact hgen (acc * 10 ^ (natToCharsFuel f (n / 10)).length)

theorem parseNatChars_natToChars (n : Nat) : parseNatChars (natToChars n) = some n := by
  unfold parseNatChars natToChars
  have hfuel : n < n + 1 := Nat.lt_succ_self n
  have hne : natToCharsFuel (n + 1) n ≠ [] := natToCharsFuel_ne_nil _ _ (by omega)
  rw [if_neg (by simpa using hne), if_pos]
  · rw [List.foldl_reverse, natToCharsFuel_foldr (n + 1) n 0 hfuel]
    simp
  · rw [List.all_reverse]
    exact natToCharsFuel_all_digits _ _ hfuel

theorem parseIntChars_intToChars (i : Int) : parseIntChars (intToChars i) = some i := by
  unfold intToChars
  by_cases hneg : i < 0
  · rw [if_pos hneg]
    have hstep : parseIntChars ('-' :: natToChars i.natAbs) =
        (parseNatChars (natToChars i.natAbs)).map (fun n => -(Int.ofNat n)) := by
      simp only [parseIntChars, eq_self_iff_true, if_true]
    rw [hstep, parseNatChars_natToChars]
    have hmap : Option.map (fun n => -Int.ofNat n) (some i.natAbs) =
        some (-Int.ofNat i.natAbs) := rfl
    rw [hmap]
    congr 1
    simp only [Int.ofNat_eq_natCast]
    omega
  · rw [if_neg hneg]
    have hne : natToChars i.natAbs ≠ [] := by
      unfold natToChars
      simp only [ne_eq, List.reverse_eq_nil_iff]
      exact natToCharsFuel_ne_nil _ _ (by omega)
    obtain ⟨c, cs, hcc⟩ := List.exists_cons_of_ne_nil hne
    have hcd : isDigit10 c = true := by
      have hall : (natToChars i.natAbs).all isDigit10 = true := by
        unfold natToChars
        rw [List.all_reverse]
        exact natToCharsFuel_all_digits _ _ (by omega)
      have hmem : c ∈ natToChars i.natAbs := by
        rw [hcc]
        exact List.mem_cons_self _ _
      exact List.all_eq_true.mp hall c hmem
    have hcne : ¬ (c = '-') := by
      intro hEq
      rw [hEq] at hcd
      exact absurd hcd (by decide)
    rw [hcc]
    have hstep : parseIntChars (c :: cs) =
        (parseNatChars (c :: cs)).map (fun n => Int.ofNat n) := by
      simp only [parseIntChars, if_neg hcne]
    rw [hstep, ← hcc, parseNatChars_natToChars]
    have hmap : Option.map (fun n => Int.ofNat n) (some i.natAbs) =
        some (Int.ofNat i.natAbs) := rfl
    rw [hmap]
    congr 1
    simp only [Int.ofNat_eq_natCast]
    omega

theorem hexDigitVal_hexDigitChar (k : Nat) (h : k < 16) :
    hexDigitVal (hexDigitChar k) = some k := by
  interval_cases k <;> decide

theorem hex4Val_hex4 (n : Nat) (h : n < 65536) :
    hex4Val (hexDigitChar (n / 4096 % 16)) (hexDigitChar (n / 256 % 16))
      (hexDigitChar (n / 16 % 16)) (hexDigitChar (n % 16)) = some n := by
  unfold hex4Val
  rw [hexDigitVal_hexDigitChar (n / 4096 % 16) (by omega),
      hexDigitVal_hexDigitChar (n / 256 % 16) (by omega),
      hexDigitVal_hexDigitChar (n / 16 % 16) (by omega),
      hexDigitVal_hexDigitChar (n % 16) (by omega)]
  show some (n / 4096 % 16 * 4096 + n / 256 % 16 * 256 + n / 16 % 16 * 16 + n % 16) = some n
  exact congrArg some (by omega)

theorem char_valid_nat (c : Char) :
    c.toNat < 55296 ∨ (57343 < c.toNat ∧ c.toNat < 1114112) := by
  rcases c.valid with h | h
  · exact Or.inl h
  · exact Or.inr h

theorem decodeEscape_u (a b x d : Char) (t : List Char) (n : Nat)
    (hv : hex4Val a b x d = some n) :
    decodeEscape ('u' :: a :: b :: x :: d :: t) = decodeU t n := by
  have h0 : decodeEscape ('u' :: a :: b :: x :: d :: t) =
      match hex4Val a b x d with
      | none => none
      | some n => decodeU t n := rfl
  rw [h0, hv]

theorem decodeU_bmp (t : List Char) (n : Nat) (hs1 : ¬ (55296 ≤ n ∧ n ≤ 56319))
    (hs2 : ¬ (56320 ≤ n ∧ n ≤ 57343)) :
    decodeU t n = some (Char.ofNat n, t) := by
  unfold decodeU
  rw [if_neg hs1, if_neg hs2]

theorem decodeU_pair (a2 b2 x2 d2 : Char) (t : List Char) (n n2 : Nat)
    (hs1 : 55296 ≤ n ∧ n ≤ 56319) (hv : hex4Val a2 b2 x2 d2 = some n2)
    (hlo : 56320 ≤ n2 ∧ n2 ≤ 57343) :
    decodeU ('\\' :: 'u' :: a2 :: b2 :: x2 :: d2 :: t) n =
      some (Char.ofNat ((n - 55296) * 1024 + (n2 - 56320) + 65536), t) := by
  unfold decodeU
  rw [if_pos hs1]
  show (if ('\\' : Char) = '\\' ∧ ('u' : Char) = 'u' then
      match hex4Val a2 b2 x2 d2 with
      | some n2 =>
        if 56320 ≤ n2 ∧ n2 ≤ 57343 then
          some (Char.ofNat ((n - 55296) * 1024 + (n2 - 56320) + 65536), t)
        else none
      | none => none
    else none) = some (Char.ofNat ((n - 55296) * 1024 + (n2 - 56320) + 65536), t)
  rw [if_pos ⟨rfl, rfl⟩, hv]
  show (if 56320 ≤ n2 ∧ n2 ≤ 57343 then
      some (Char.ofNat ((n - 55296) * 1024 + (n2 - 56320) + 65536), t) else none) =
    some (Char.ofNat ((n - 55296) * 1024 + (n2 - 56320) + 65536), t)
  rw [if_pos hlo]

theorem escapeChar_literal (c : Char) (h1 : ¬ (c = '"')) (h2 : ¬ (c = '\\'))
    (h3 : ¬ (c.toNat < 32 ∨ 127 ≤ c.toNat)) : escapeChar c = [c] := by
  have hn : ¬ (c = '\n') := fun hEq => h3 (by rw [hEq]; exact Or.inl (by decide))
  have hr : ¬ (c = '\r') := fun hEq => h3 (by rw [hEq]; exact Or.inl (by decide))
  have ht : ¬ (c = '\t') := fun hEq => h3 (by rw [hEq]; exact Or.inl (by decide))
  have hb : ¬ (c = Char.ofNat 8) := fun hEq => h3 (by rw [hEq]; exact Or.inl (by decide))
  have hf : ¬ (c = Char.ofNat 12) := fun hEq => h3 (by rw [hEq]; exact Or.inl (by decide))
  unfold escapeChar
  rw [if_neg h1, if_neg h2, if_neg hn, if_neg hr, if_neg ht, if_neg hb, if_neg hf,
      if_neg h3]

theorem escapeChar_u_bmp (c : Char) (h1 : ¬ (c = '"')) (h2 : ¬ (c = '\\'))
    (hn : ¬ (c = '\n')) (hr : ¬ (c = '\r')) (ht : ¬ (c = '\t'))
    (hb : ¬ (c = Char.ofNat 8)) (hf : ¬ (c = Char.ofNat 12))
    (hesc : c.toNat < 32 ∨ 127 ≤ c.toNat) (hbmp : c.toNat < 65536) :
    escapeChar c = '\\' :: 'u' :: hex4 c.toNat := by
  unfold escapeChar
  rw [if_neg h1, if_neg h2, if_neg hn, if_neg hr, if_neg ht, if_neg hb, if_neg hf,
      if_pos hesc, if_pos hbmp]

theorem escapeChar_u_astral (c : Char) (hast : 65536 ≤ c.toNat) :
    escapeChar c = ('\\' :: 'u' :: hex4 (55296 + (c.toNat - 65536) / 1024)) ++
      ('\\' :: 'u' :: hex4 (56320 + (c.toNat - 65536) % 1024)) := by
  have h1 : ¬ (c = '"') := fun hEq => by rw [hEq] at hast; exact absurd hast (by decide)
  have h2 : ¬ (c = '\\') := fun hEq => by rw [hEq] at hast; exact absurd hast (by decide)
  have hn : ¬ (c = '\n') := fun hEq => by rw [hEq] at hast; exact absurd hast (by decide)
  have hr : ¬ (c = '\r') := fun hEq => by rw [hEq] at hast; exact absurd hast (by decide)
  have ht : ¬ (c = '\t') := fun hEq => by rw [hEq] at hast; exact absurd hast (by decide)
  have hb : ¬ (c = Char.ofNat 8) := fun hEq => by
    rw [hEq] at hast; exact absurd hast (by decide)
  have hf : ¬ (c = Char.ofNat 12) := fun hEq => by
    rw [hEq] at hast; exact absurd hast (by decide)
  unfold escapeChar
  rw [if_neg h1, if_neg h2, if_neg hn, if_neg hr, if_neg ht, if_neg hb, if_neg hf,
      if_pos (Or.inr (by omega)), if_neg (by omega)]

/-- Every escape the serializer emits is decoded back to the original
character: either the character stands for itself, or its escape suffix
(after the backslash) decodes to it whatever input follows. -/
theorem escapeChar_decode (c : Char) :
    (escapeChar c = [c] ∧ ¬ (c = '"') ∧ ¬ (c = '\\')) ∨
    (∃ suffix, escapeChar c = '\\' :: suffix ∧
        ∀ R : List Char, decodeEscape (suffix ++ R) = some (c, R)) := by
  by_cases h1 : c = '"'
  · exact Or.inr ⟨['"'], by rw [h1]; decide, fun R => by rw [h1]; rfl⟩
  by_cases h2 : c = '\\'
  · exact Or.inr ⟨['\\'], by rw [h2]; decide, fun R => by rw [h2]; rfl⟩
  by_cases hn : c = '\n'
  · exact Or.inr ⟨['n'], by rw [hn]; decide, fun R => by rw [hn]; rfl⟩
  by_cases hr : c = '\r'
  · exact Or.inr ⟨['r'], by rw [hr]; decide, fun R => by rw [hr]; rfl⟩
  by_cases ht : c = '\t'
  · exact Or.inr ⟨['t'], by rw [ht]; decide, fun R => by rw [ht]; rfl⟩
  by_cases hb : c = Char.ofNat 8
  · exact Or.inr ⟨['b'], by rw [hb]; decide, fun R => by rw [hb]; rfl⟩
  by_cases hf : c = Char.ofNat 12
  · exact Or.inr ⟨['f'], by rw [hf]; decide, fun R => by rw [hf]; rfl⟩
  by_cases hesc : c.toNat < 32 ∨ 127 ≤ c.toNat
  · by_cases hbmp : c.toNat < 65536
    · refine Or.inr ⟨'u' :: hex4 c.toNat, escapeChar_u_bmp c h1 h2 hn hr ht hb hf hesc hbmp, ?_⟩
      intro R
      have hval := char_valid_nat c
      show decodeEscape ('u' :: hexDigitChar (c.toNat / 4096 % 16) ::
          hexDigitChar (c.toNat / 256 % 16) :: hexDigitChar (c.toNat / 16 % 16) ::
          hexDigitChar (c.toNat % 16) :: R) = some (c, R)
      rw [decodeEscape_u _ _ _ _ _ _ (hex4Val_hex4 c.toNat hbmp),
          decodeU_bmp _ _ (by omega) (by omega), Char.ofNat_toNat]
    · refine Or.inr ⟨'u' :: hex4 (55296 + (c.toNat - 65536) / 1024) ++
          ('\\' :: 'u' :: hex4 (56320 + (c.toNat - 65536) % 1024)),
        escapeChar_u_astral c (by omega), ?_⟩
      intro R
      have hval := char_valid_nat c
      show decodeEscape ('u' ::
          hexDigitChar ((55296 + (c.toNat - 65536) / 1024) / 4096 % 16) ::
          hexDigitChar ((55296 + (c.toNat - 65536) / 1024) / 256 % 16) ::
          hexDigitChar ((55296 + (c.toNat - 65536) / 1024) / 16 % 16) ::
          hexDigitChar ((55296 + (c.toNat - 65536) / 1024) % 16) ::
          ('\\' :: 'u' ::
            hexDigitChar ((56320 + (c.toNat - 65536) % 1024) / 4096 % 16) ::
            hexDigitChar ((56320 + (c.toNat - 65536) % 1024) / 256 % 16) ::
            hexDigitChar ((56320 + (c.toNat - 65536) % 1024) / 16 % 16) ::
            hexDigitChar ((56320 + (c.toNat - 65536) % 1024) % 16) :: R)) = some (c, R)
      rw [decodeEscape_u _ _ _ _ _ _ (hex4Val_hex4 _ (by omega)),
          decodeU_pair _ _ _ _ _ _ _ (by omega) (hex4Val_hex4 _ (by omega)) (by omega)]
      have harith : (55296 + (c.toNat - 65536) / 1024 - 55296) * 1024 +
          (56320 + (c.toNat - 65536) % 1024 - 56320) + 65536 = c.toNat := by omega
      rw [harith, Char.ofNat_toNat]
  · exact Or.inl ⟨escapeChar_literal c h1 h2 hesc, h1, h2⟩

theorem unescapeAux_cons (fuel : Nat) (c : Char) (rest : List Char) :
    unescapeAux (fuel + 1) (c :: rest) =
      if c = '"' then some ([], rest)
      else if c = '\\' then
        match decodeEscape rest with
        | some p => (unescapeAux fuel p.2).map (fun q => (p.1 :: q.1, q.2))
        | none => none
      else (unescapeAux fuel rest).map (fun p => (c :: p.1, p.2)) := rfl

theorem escapeChar_length_pos (c : Char) : 1 ≤ (escapeChar c).length := by
  unfold escapeChar
  split_ifs <;> simp [hex4]

theorem escapeStr_cons (c : Char) (s : List Char) :
    escapeStr (c :: s) = escapeChar c ++ escapeStr s := by
  simp [escapeStr]

theorem escapeStr_length_ge (s : List Char) : s.length ≤ (escapeStr s).length := by
  induction s with
  | nil => simp [escapeStr]
  | cons c s ih =>
    rw [escapeStr_cons, List.length_append, List.length_cons]
    have h1 := escapeChar_length_pos c
    omega

theorem unescapeAux_escapeStr (s : List Char) :
    ∀ (t : List Char) (fuel : Nat), s.length + 1 ≤ fuel →
    unescapeAux fuel (escapeStr s ++ '"' :: t) = some (s, t) := by
  induction s with
  | nil =>
    intro t fuel h
    cases fuel with
    | zero => omega
    | succ f =>
      show unescapeAux (f + 1) ('"' :: t) = some ([], t)
      rw [unescapeAux_cons, if_pos rfl]
  | cons c s ih =>
    intro t fuel h
    cases fuel with
    | zero => omega
    | succ f =>
      rw [escapeStr_cons, List.append_assoc]
      have hih : unescapeAux f (escapeStr s ++ '"' :: t) = some (s, t) := by
        apply ih
        simp only [List.length_cons] at h
        omega
      rcases escapeChar_decode c with ⟨he, h2, h3⟩ | ⟨suffix, he, hdec⟩
      · rw [he]
        show unescapeAux (f + 1) (c :: (escapeStr s ++ '"' :: t)) = some (c :: s, t)
        rw [unescapeAux_cons, if_neg h2, if_neg h3, hih]
        rfl
      · rw [he]
        show unescapeAux (f + 1) ('\\' :: (suffix ++ (escapeStr s ++ '"' :: t))) =
          some (c :: s, t)
        rw [unescapeAux_cons, if_neg (show ¬ (('\\' : Char) = '"') by decide),
            if_pos rfl, hdec (escapeStr s ++ '"' :: t)]
        show (unescapeAux f (escapeStr s ++ '"' :: t)).map
            (fun q => (c :: q.1, q.2)) = some (c :: s, t)
        rw [hih]
        rfl

theorem parseJsonString_jsonString (s t : List Char) :
    parseJsonString (jsonStringChars s ++ t) = some (s, t) := by
  have h0 : jsonStringChars s ++ t = '"' :: (escapeStr s ++ ('"' :: t)) := by
    simp [jsonStringChars, List.append_assoc]
  rw [h0]
  have h1 : parseJsonString ('"' :: (escapeStr s ++ ('"' :: t))) =
      unescapeAux ((escapeStr s ++ ('"' :: t)).length + 1) (escapeStr s ++ ('"' :: t)) := rfl
  rw [h1]
  apply unescapeAux_escapeStr
  have h2 := escapeStr_length_ge s
  rw [List.length_append]
  omega

theorem expectLit_append (p rest : List Char) : expectLit p (p ++ rest) = some rest := by
  induction p with
  | nil => rfl
  | cons c p ih =>
    have h0 : expectLit (c :: p) (c :: (p ++ rest)) =
        if c = c then expectLit p (p ++ rest) else none := rfl
    rw [List.cons_append, h0, if_pos rfl, ih]

theorem parseEntry_renderEntry (e : Entry) (t : List Char) :
    parseEntry (renderEntry e ++ t) = some (e, t) := by
  unfold parseEntry renderEntry
  simp only [List.append_assoc, expectLit_append, Option.some_bind,
    parseJsonString_jsonString, parseIntChars_intToChars, Option.map_some]
  rfl

theorem renderEntry_length_pos (e : Entry) : 1 ≤ (renderEntry e).length := by
  unfold renderEntry
  simp only [List.length_append]
  have h1 : 1 ≤ (strL "  \x7b\n    \"command\": ").length := by decide
  omega

theorem renderEntries_length_ge (evs : List Entry) :
    evs.length ≤ (renderEntries evs).length := by
  induction evs with
  | nil => simp [renderEntries]
  | cons e evs ih =>
    cases evs with
    | nil =>
      have h1 := renderEntry_length_pos e
      have h0 : renderEntries [e] = renderEntry e := rfl
      rw [h0]
      simp only [List.length_cons, List.length_nil]
      omega
    | cons e2 rest =>
      have h0 : renderEntries (e :: e2 :: rest) =
          renderEntry e ++ strL ",\n" ++ renderEntries (e2 :: rest) := rfl
      rw [h0]
      simp only [List.length_append, List.length_cons]
      have h1 := renderEntry_length_pos e
      have h2 : (strL ",\n").length = 2 := by decide
      simp only [List.length_cons] at ih
      omega

theorem parseEntriesAux_renderEntries (evs : List Entry) :
    ∀ fuel, evs.length ≤ fuel → ¬ (evs = []) →
    parseEntriesAux fuel (renderEntries evs ++ strL "\n]") = some evs := by
  induction evs with
  | nil =>
    intro fuel _ hne
    exact absurd rfl hne
  | cons e evs ih =>
    intro fuel hlen _
    cases fuel with
    | zero => simp at hlen
    | succ f =>
      cases evs with
      | nil =>
        have h0 : parseEntriesAux (f + 1) (renderEntry e ++ strL "\n]") =
            (parseEntry (renderEntry e ++ strL "\n]")).bind fun p =>
              match expectLit (strL ",\n") p.2 with
              | some r2 => (parseEntriesAux f r2).map (fun es => p.1 :: es)
              | none =>
                match expectLit (strL "\n]") p.2 with
                | some r3 => if r3 = [] then some [p.1] else none
                | none => none := rfl
        show parseEntriesAux (f + 1) (renderEntry e ++ strL "\n]") = some [e]
        rw [h0, parseEntry_renderEntry, Option.some_bind]
        have e1 : expectLit (strL ",\n") (strL "\n]") = none := by decide
        have e2 : expectLit (strL "\n]") (strL "\n]") = some [] := by decide
        rw [e1]
        show (match expectLit (strL "\n]") (strL "\n]") with
              | some r3 => if r3 = ([] : List Char) then some [e] else none
              | none => none) = some [e]
        rw [e2]
        show (if ([] : List Char) = ([] : List Char) then some [e] else none) = some [e]
        rw [if_pos rfl]
      | cons e2 rest =>
        have hr : renderEntries (e :: e2 :: rest) =
            renderEntry e ++ strL ",\n" ++ renderEntries (e2 :: rest) := rfl
        rw [hr, List.append_assoc, List.append_assoc]
        have h0 : parseEntriesAux (f + 1)
            (renderEntry e ++ (strL ",\n" ++ (renderEntries (e2 :: rest) ++ strL "\n]"))) =
            (parseEntry (renderEntry e ++
                (strL ",\n" ++ (renderEntries (e2 :: rest) ++ strL "\n]")))).bind fun p =>
              match expectLit (strL ",\n") p.2 with
              | some r2 => (parseEntriesAux f r2).map (fun es => p.1 :: es)
              | none =>
                match expectLit (strL "\n]") p.2 with
                | some r3 => if r3 = [] then some [p.1] else none
                | none => none := rfl
        rw [h0, parseEntry_renderEntry, Option.some_bind]
        rw [expectLit_append]
        show (parseEntriesAux f (renderEntries (e2 :: rest) ++ strL "\n]")).map
            (fun es => e :: es) = some (e :: e2 :: rest)
        rw [ih f (by simp only [List.length_cons] at hlen ⊢; omega) (by simp)]
        rfl

theorem load_save (commands : List Entry) :
    load_commands (save_commands commands) = some commands := by
  cases commands with
  | nil => decide
  | cons e evs =>
    have hsave : save_commands (e :: evs) =
        strL "[\n" ++ (renderEntries (e :: evs) ++ strL "\n]") := by
      unfold save_commands
      rw [if_neg (by simp), List.append_assoc]
    rw [hsave]
    have hne2 : ¬ (strL "[\n" ++ (renderEntries (e :: evs) ++ strL "\n]") = strL "[]") := by
      intro hEq
      have hlen := congrArg List.length hEq
      simp only [List.length_append] at hlen
      have l1 : (strL "[\n").length = 2 := by decide
      have l2 : (strL "\n]").length = 2 := by decide
      have l3 : (strL "[]").length = 2 := by decide
      omega
    unfold load_commands
    rw [if_neg hne2, expectLit_append, Option.some_bind]
    apply parseEntriesAux_renderEntries (e :: evs) _ _ (by simp)
    have h1 := renderEntries_length_ge (e :: evs)
    simp only [List.length_append, List.length_cons] at h1 ⊢
    have l1 : (strL "[\n").length = 2 := by decide
    have l2 : (strL "\n]").length = 2 := by decide
    omega

/-- Claim C5: the persisted form round-trips exactly — for every
sequence of events (including the empty sequence), parsing the text
`save_commands` writes yields the original sequence. -/
theorem claim_C5 (commands : List Entry) :
    load_commands (save_commands commands) = some commands :=
  load_save commands

/-- Claim C9: loading does not enforce the retention cap — the
persisted sequence is returned in full even beyond 10000 events
(`load_commands`/`json.load` does no truncation), while the append step
truncates, so the store holds more than 10000 events only until the
next append. -/
theorem claim_C9 (commands : List Entry) (h : 10000 < commands.length) :
    load_commands (save_commands commands) = some commands ∧
    ∀ e : Entry, (append_and_truncate commands e).length = 10000 := by
  refine ⟨load_save commands, fun e => ?_⟩
  rw [length_append_and_truncate]
  simp only [List.length_append, List.length_cons, List.length_nil]
  omega

/-- Witness for C9 at a concrete store of 10001 events. -/
theorem claim_C9_witness :
    load_commands (save_commands (List.replicate 10001 entryLs)) =
      some (List.replicate 10001 entryLs) ∧
    ∀ e : Entry,
      (append_and_truncate (List.replicate 10001 entryLs) e).length = 10000 :=
  claim_C9 _ (by
    rw [List.length_replicate]
    omega)

/-- Counterexample to claim C1: logging `" 42  ls -la "` stores
`full_command = "42  ls -la"` — line 48 strips the raw line before it
is stored, so the stored field is not the untouched input. -/
theorem claim_C1_counterexample :
    (normalizeLine (strL " 42  ls -la ") 0).map (fun e => e.full_command) =
      some (strL "42  ls -la") ∧
    ¬ (strL "42  ls -la" = strL " 42  ls -la ") :=
  ⟨by decide, by decide⟩

/-- Claim C1 (amended): for every logged line, the stored event's
`full_command` (the spec's `full_line`) equals the raw input with its
leading and trailing whitespace stripped; the ordinal prefix is kept. -/
theorem claim_C1 (line : List Char) (now : Int) (e : Entry)
    (h : normalizeLine line now = some e) : e.full_command = pyStrip line := by
  simp only [normalizeLine] at h
  by_cases hc : pyStrip (subOrdinal (pyStrip line)) = []
  · rw [if_pos hc] at h
    exact absurd h (by simp)
  · rw [if_neg hc] at h
    cases h
    rfl

/-- Witness for C1 at a concrete input. -/
theorem claim_C1_witness :
    (⟨strL "ls", strL "ls", 0, strL "ls"⟩ : Entry).full_command = pyStrip (strL "ls") :=
  claim_C1 (strL "ls") 0 _ (by decide)

/-- Counterexample to claim C2: `get_stats` returns a result for a zero
and for a negative window instead of failing — no `InvalidWindowError`
exists anywhere in the code.  With window 0 the single event is counted
(Python's `if days:` is false at 0, so no filter is applied); with
window −5 a result is still returned (empty, since the cutoff lies in
the future). -/
theorem claim_C2_counterexample :
    (get_stats [entryLs] 100 (some 0)).total_commands = 1 ∧
    (get_stats [entryLs] 100 (some (-5))).total_commands = 0 ∧
    (get_stats [entryLs] 100 (some (-5))).base_command_counts = [] :=
  ⟨by decide, by decide, by decide⟩

theorem get_stats_zero_window (commands : List Entry) (now : Int) :
    get_stats commands now (some 0) =
      { get_stats commands now none with period_days := some 0 } := by
  simp [get_stats]

/-- Claim C2 (amended): a non-positive window never raises — the
computation always returns statistics.  A zero window is falsy in
`if days:`, so it disables filtering entirely: every field agrees with
the no-window result except `period_days`, which records the argument.
A negative window filters against the cutoff `now - days`, an instant
later than `now`, so when every event is at or before `now` the result
is empty statistics. -/
theorem claim_C2 (commands : List Entry) (now : Int) :
    get_stats commands now (some 0) =
      { get_stats commands now none with period_days := some 0 } ∧
    (∀ d : Int, d < 0 → (∀ e ∈ commands, e.timestamp ≤ now) →
      (get_stats commands now (some d)).total_commands = 0 ∧
      (get_stats commands now (some d)).base_command_counts = []) := by
  refine ⟨get_stats_zero_window commands now, fun d hd hle => ?_⟩
  have hfil : commands.filter (fun e => e.timestamp ≥ now - timedeltaDays d) = [] := by
    rw [List.filter_eq_nil_iff]
    intro e he
    have h1 := hle e he
    simp only [timedeltaDays, ge_iff_le, decide_eq_true_eq]
    omega
  have h0 : get_stats commands now (some d) =
      { total_commands := 0, unique_base_commands := 0, base_command_counts := [],
        full_command_counts := [], last_used := [], period_days := some d } := by
    simp only [get_stats]
    rw [if_pos (by omega : d ≠ 0), hfil]
    rfl
  rw [h0]
  exact ⟨rfl, rfl⟩

/-- Witness for C2 at a concrete input. -/
theorem claim_C2_witness :
    get_stats [entryLs] 100 (some 0) =
      { get_stats [entryLs] 100 none with period_days := some 0 } ∧
    (get_stats [entryLs] 100 (some (-5))).total_commands = 0 ∧
    (get_stats [entryLs] 100 (some (-5))).base_command_counts = [] :=
  ⟨(claim_C2 [entryLs] 100).1,
   (claim_C2 [entryLs] 100).2 (-5) (by omega) (by
      intro e he
      simp only [List.mem_singleton] at he
      rw [he]
      decide)⟩

theorem save_commands_ne_nil (evs : List Entry) : ¬ (save_commands evs = []) := by
  unfold save_commands
  split_ifs
  · decide
  · intro h
    have hlen := congrArg List.length h
    simp only [List.length_append, List.length_nil] at hlen
    have l1 : (strL "[\n").length = 2 := by decide
    omega

/-- Counterexample to claim C3: the truncated (empty) intermediate
state of a save is visible on disk, differs from the previously
persisted contents, and a subsequent load rejects it — the write is not
atomic. -/
theorem claim_C3_counterexample :
    ([] : List Char) ∈ save_commands_states (save_commands [entryLs]) [entryLs, entryLs] ∧
    ¬ (([] : List Char) = save_commands [entryLs]) ∧
    load_commands [] = none := by
  refine ⟨by simp [save_commands_states], ?_, by decide⟩
  exact fun h => save_commands_ne_nil [entryLs] h.symm

/-- Claim C3 (amended): `save_commands` rewrites the store file in
place — `open(file, 'w')` truncates it before `json.dump` writes — so
for every save over a previously persisted file there is a visible
on-disk state that is neither the old nor the new contents and that a
subsequent load fails to parse (`CorruptStateError`); no
write-to-temp-then-rename is performed. -/
theorem claim_C3 (prev next : List Entry) :
    ∃ s ∈ save_commands_states (save_commands prev) next,
      ¬ (s = save_commands prev) ∧ ¬ (s = save_commands next) ∧
      load_commands s = none := by
  refine ⟨[], by simp [save_commands_states], ?_, ?_, by decide⟩
  · exact fun h => save_commands_ne_nil prev h.symm
  · exact fun h => save_commands_ne_nil next h.symm

theorem head_dropWhile_not_pySpace (l : List Char) :
    ∀ (c : Char) (rest : List Char),
    l.dropWhile pySpace = c :: rest → pySpace c = false := by
  induction l with
  | nil =>
    intro c rest h
    exact absurd h (by simp)
  | cons a l ih =>
    intro c rest h
    by_cases ha : pySpace a
    · rw [List.dropWhile_cons_of_pos ha] at h
      exact ih c rest h
    · rw [List.dropWhile_cons_of_neg ha] at h
      cases h
      simpa using ha

theorem dropWhile_pyStrip (l : List Char) :
    (pyStrip l).dropWhile pySpace = pyStrip l := by
  unfold pyStrip
  cases h : l.dropWhile pySpace with
  | nil => simp
  | cons c rest =>
    have hc : pySpace c = false := head_dropWhile_not_pySpace l c rest h
    rw [List.reverse_cons, List.dropWhile_append]
    by_cases he : (rest.reverse.dropWhile pySpace).isEmpty
    · rw [if_pos he]
      have h1 : List.dropWhile pySpace [c] = [c] :=
        List.dropWhile_cons_of_neg (by simp [hc])
      rw [h1]
      simp [List.dropWhile_cons_of_neg, hc]
    · rw [if_neg he]
      rw [List.reverse_append]
      simp only [List.reverse_cons, List.reverse_nil, List.nil_append,
        List.singleton_append]
      rw [List.dropWhile_cons_of_neg (by simp [hc])]

/-- Counterexample to claim C6: the claim's normalization order (strip
the digit ordinal from the raw line first, then strip whitespace)
applied to the claim's own example `" 42  ls -la "` yields
`"42  ls -la"` (the ordinal survives because the raw line starts with a
space, not a digit), while the code stores `"ls -la"` — the claim's
algorithm and its asserted outcome contradict each other on the code. -/
theorem claim_C6_counterexample :
    normalizeSpecOrder (strL " 42  ls -la ") = strL "42  ls -la" ∧
    (normalizeLine (strL " 42  ls -la ") 0).map (fun e => e.command) =
      some (strL "ls -la") ∧
    ¬ (strL "42  ls -la" = strL "ls -la") :=
  ⟨by decide, by decide, by decide⟩

/-- Claim C6 (amended): normalization strips surrounding whitespace
first and then applies the claim's rule (strip a leading run of decimal
digits followed by whitespace, then strip surrounding whitespace): the
stored command of a line is `normalizeSpecOrder (pyStrip line)`, and it
is stored only when non-empty.  Logging `" 42  ls -la "` stores command
`"ls -la"` with base_command `"ls"` and a whitespace-only line produces
no event, leaving the store unchanged. -/
theorem claim_C6 :
    (∀ (line : List Char) (now : Int),
      (normalizeLine line now).map (fun e => e.command) =
        (if normalizeSpecOrder (pyStrip line) = [] then none
         else some (normalizeSpecOrder (pyStrip line)))) ∧
    (∀ now : Int, normalizeLine (strL " 42  ls -la ") now =
      some ⟨strL "ls -la", strL "ls", now, strL "42  ls -la"⟩) ∧
    (∀ (commands : List Entry) (line : List Char) (now : Int),
      (∀ c ∈ line, pySpace c) → log_command commands line now = commands) := by
  refine ⟨fun line now => ?_, fun now => rfl, fun commands line now hsp => ?_⟩
  · have hsub : subOrdinal (pyStrip line) = dropOrdinalSpec (pyStrip line) := by
      unfold subOrdinal dropOrdinalSpec
      rw [dropWhile_pyStrip]
    simp only [normalizeLine, normalizeSpecOrder, hsub]
    by_cases hc : pyStrip (dropOrdinalSpec (pyStrip line)) = []
    · rw [if_pos hc, if_pos hc]
      rfl
    · rw [if_neg hc, if_neg hc]
      rfl
  · have h1 : pyStrip line = [] := by
      unfold pyStrip
      have h2 : line.dropWhile pySpace = [] :=
        List.dropWhile_eq_nil_iff.mpr (fun x hx => hsp x hx)
      rw [h2]
      rfl
    have h2 : normalizeLine line now = none := by
      simp only [normalizeLine, h1]
      rfl
    unfold log_command
    rw [h2]

/-- Witness for C6 at concrete inputs. -/
theorem claim_C6_witness :
    normalizeLine (strL " 42  ls -la ") 7 =
      some ⟨strL "ls -la", strL "ls", 7, strL "42  ls -la"⟩ ∧
    log_command [] (strL "  ") 0 = [] :=
  ⟨claim_C6.2.1 7, claim_C6.2.2 [] (strL "  ") 0 (by decide)⟩

theorem insertDescBy_head? (key : α → Nat) (x : α) (ys : List α) :
    (insertDescBy key x ys).head? = some x ∨
    (insertDescBy key x ys).head? = ys.head? := by
  cases ys with
  | nil => exact Or.inl rfl
  | cons z zs =>
    unfold insertDescBy
    by_cases hk : key z < key x
    · rw [if_pos hk]
      exact Or.inl rfl
    · rw [if_neg hk]
      exact Or.inr rfl

theorem chain'_insertDescBy (key : α → Nat) (x : α) :
    ∀ l, List.Chain' (fun a b => key b ≤ key a) l →
      List.Chain' (fun a b => key b ≤ key a) (insertDescBy key x l) := by
  intro l
  induction l with
  | nil => intro _; simp [insertDescBy]
  | cons y ys ih =>
    intro h
    unfold insertDescBy
    by_cases hk : key y < key x
    · rw [if_pos hk]
      exact List.chain'_cons.mpr ⟨by omega, h⟩
    · rw [if_neg hk]
      refine List.chain'_cons'.mpr ⟨?_, ih h.tail⟩
      intro b hb
      rcases insertDescBy_head? key x ys with hh | hh
      · rw [hh] at hb
        simp only [Option.mem_def, Option.some.injEq] at hb
        subst hb
        omega
      · rw [hh] at hb
        exact (List.chain'_cons'.mp h).1 b hb

theorem chain'_sortDescBy (key : α → Nat) (l : List α) :
    List.Chain' (fun a b => key b ≤ key a) (sortDescBy key l) := by
  unfold sortDescBy
  have haux : ∀ (l acc : List α), List.Chain' (fun a b => key b ≤ key a) acc →
      List.Chain' (fun a b => key b ≤ key a)
        (l.foldl (fun acc x => insertDescBy key x acc) acc) := by
    intro l
    induction l with
    | nil => intro acc h; exact h
    | cons x xs ih =>
      intro acc h
      exact ih _ (chain'_insertDescBy key x acc h)
  exact haux l [] (by simp)

/-- Claim C7: search matches case-insensitively by substring against
command or base_command and groups by base_command: on events
{"git status", "git add .", "ls"} with query "git" the result is a
single group "git" with 2 matches whose distinct commands are listed in
ascending order, and "ls" is absent (also under the upper-case query
"GIT"); a group with 6 distinct commands shows only the first 5 in
ascending order and reports 1 more; in general the groups come in
descending match-count order and at most 5 distinct commands are shown
per group. -/
theorem claim_C7 :
    search_commands
      [⟨strL "git status", strL "git", 1, strL "git status"⟩,
       ⟨strL "git add .", strL "git", 2, strL "git add ."⟩,
       ⟨strL "ls", strL "ls", 3, strL "ls"⟩] (strL "git") =
      [{ base := strL "git", matchCount := 2,
         shown := [strL "git add .", strL "git status"], more := 0 }] ∧
    search_commands
      [⟨strL "git status", strL "git", 1, strL "git status"⟩,
       ⟨strL "git add .", strL "git", 2, strL "git add ."⟩,
       ⟨strL "ls", strL "ls", 3, strL "ls"⟩] (strL "GIT") =
      [{ base := strL "git", matchCount := 2,
         shown := [strL "git add .", strL "git status"], more := 0 }] ∧
    search_commands
      [⟨strL "g f", strL "g", 1, strL "g f"⟩, ⟨strL "g e", strL "g", 2, strL "g e"⟩,
       ⟨strL "g d", strL "g", 3, strL "g d"⟩, ⟨strL "g c", strL "g", 4, strL "g c"⟩,
       ⟨strL "g b", strL "g", 5, strL "g b"⟩, ⟨strL "g a", strL "g", 6, strL "g a"⟩]
      (strL "g") =
      [{ base := strL "g", matchCount := 6,
         shown := [strL "g a", strL "g b", strL "g c", strL "g d", strL "g e"],
         more := 1 }] ∧
    (∀ (commands : List Entry) (query : List Char),
      List.Chain' (fun g1 g2 => g2.matchCount ≤ g1.matchCount)
        (search_commands commands query)) ∧
    (∀ (commands : List Entry) (query : List Char),
      ∀ g ∈ search_commands commands query, g.shown.length ≤ 5) := by
  refine ⟨by decide, by decide, by decide, fun commands query => ?_,
    fun commands query g hg => ?_⟩
  · unfold search_commands
    rw [List.chain'_map]
    exact chain'_sortDescBy _ _
  · unfold search_commands at hg
    simp only [List.mem_map] at hg
    obtain ⟨p, _, hp⟩ := hg
    rw [← hp]
    simp only [List.length_take]
    omega

/-- Witness for C7 at the concrete three-event store. -/
theorem claim_C7_witness :
    ({ base := strL "git", matchCount := 2,
       shown := [strL "git add .", strL "git status"], more := 0 } : SearchGroup).shown.length ≤ 5 ∧
    List.Chain' (fun g1 g2 => g2.matchCount ≤ g1.matchCount)
      (search_commands
        [⟨strL "git status", strL "git", 1, strL "git status"⟩,
         ⟨strL "git add .", strL "git", 2, strL "git add ."⟩,
         ⟨strL "ls", strL "ls", 3, strL "ls"⟩] (strL "git")) :=
  ⟨claim_C7.2.2.2.2
      [⟨strL "git status", strL "git", 1, strL "git status"⟩,
       ⟨strL "git add .", strL "git", 2, strL "git add ."⟩,
       ⟨strL "ls", strL "ls", 3, strL "ls"⟩] (strL "git") _ (by decide),
   claim_C7.2.2.2.1
      [⟨strL "git status", strL "git", 1, strL "git status"⟩,
       ⟨strL "git add .", strL "git", 2, strL "git add ."⟩,
       ⟨strL "ls", strL "ls", 3, strL "ls"⟩] (strL "git")⟩

theorem mem_firstKeysAux [DecidableEq κ] (l : List κ) (a : κ) :
    ∀ seen, a ∈ firstKeysAux seen l ↔ a ∈ l ∧ ¬ (a ∈ seen) := by
  induction l with
  | nil =>
    intro seen
    simp [firstKeysAux]
  | cons b l ih =>
    intro seen
    unfold firstKeysAux
    by_cases hb : b ∈ seen
    · rw [if_pos hb, ih seen]
      simp only [List.mem_cons]
      constructor
      · rintro ⟨ha, hn⟩
        exact ⟨Or.inr ha, hn⟩
      · rintro ⟨ha | ha, hn⟩
        · subst ha
          exact absurd hb hn
        · exact ⟨ha, hn⟩
    · rw [if_neg hb]
      simp only [List.mem_cons, ih (b :: seen)]
      by_cases hab : a = b
      · subst hab
        simp [hb]
      · simp [hab]

theorem mem_firstKeys [DecidableEq κ] (l : List κ) (a : κ) :
    a ∈ firstKeys l ↔ a ∈ l := by
  unfold firstKeys
  rw [mem_firstKeysAux]
  simp

theorem nodup_firstKeysAux [DecidableEq κ] (l : List κ) :
    ∀ seen, (firstKeysAux seen l).Nodup := by
  induction l with
  | nil =>
    intro seen
    simp [firstKeysAux]
  | cons b l ih =>
    intro seen
    unfold firstKeysAux
    by_cases hb : b ∈ seen
    · rw [if_pos hb]
      exact ih seen
    · rw [if_neg hb]
      refine List.nodup_cons.mpr ⟨?_, ih (b :: seen)⟩
      rw [mem_firstKeysAux]
      simp

theorem firstKeys_perm [DecidableEq κ] {l1 l2 : List κ} (h : l1.Perm l2) :
    (firstKeys l1).Perm (firstKeys l2) := by
  refine (List.perm_ext_iff_of_nodup (nodup_firstKeysAux l1 []) (nodup_firstKeysAux l2 [])).mpr ?_
  intro a
  show a ∈ firstKeys l1 ↔ a ∈ firstKeys l2
  rw [mem_firstKeys, mem_firstKeys]
  exact h.mem_iff

theorem lookupD_map_pair [DecidableEq κ] (ks : List κ) (f : κ → β) (a : κ) :
    lookupD a (ks.map (fun k => (k, f k))) = if a ∈ ks then some (f a) else none := by
  induction ks with
  | nil => simp [lookupD]
  | cons k ks ih =>
    simp only [List.map_cons, lookupD]
    by_cases hak : a = k
    · rw [if_pos hak, if_pos (by simp [hak]), hak]
    · rw [if_neg hak, ih]
      by_cases ha : a ∈ ks
      · rw [if_pos ha, if_pos (List.mem_cons_of_mem _ ha)]
      · rw [if_neg ha, if_neg (by simp [hak, ha])]

theorem countD_perm [DecidableEq κ] (a : κ) {l1 l2 : List κ} (h : l1.Perm l2) :
    countD a l1 = countD a l2 := by
  induction h with
  | nil => rfl
  | cons x _ ih => simp [countD, ih]
  | swap x y l => simp [countD]; omega
  | trans _ _ ih1 ih2 => omega

theorem countD_pos [DecidableEq κ] (a : κ) (l : List κ) (h : a ∈ l) :
    0 < countD a l := by
  induction l with
  | nil => simp at h
  | cons b l ih =>
    simp only [List.mem_cons] at h
    unfold countD
    rcases h with h | h
    · rw [if_pos h.symm]
      omega
    · have := ih h
      omega

theorem lookupD_counterItems [DecidableEq κ] (l : List κ) (a : κ) :
    lookupD a (counterItems l) = if a ∈ l then some (countD a l) else none := by
  unfold counterItems
  rw [lookupD_map_pair]
  by_cases ha : a ∈ firstKeys l
  · rw [if_pos ha, if_pos ((mem_firstKeys l a).mp ha)]
  · rw [if_neg ha, if_neg (fun hb => ha ((mem_firstKeys l a).mpr hb))]

theorem dictEq_counterItems [DecidableEq κ] {l1 l2 : List κ} (h : l1.Perm l2) :
    dictEq (counterItems l1) (counterItems l2) := by
  intro a
  rw [lookupD_counterItems, lookupD_counterItems]
  by_cases ha : a ∈ l1
  · rw [if_pos ha, if_pos (h.mem_iff.mp ha), countD_perm a h]
  · rw [if_neg ha, if_neg (fun hb => ha (h.mem_iff.mpr hb))]

theorem lookupD_filterMap_pair [DecidableEq κ] (ks : List κ) (g : κ → Option β) (a : κ) :
    lookupD a (ks.filterMap (fun k => (g k).map (fun m => (k, m)))) =
      if a ∈ ks then g a else none := by
  induction ks with
  | nil => simp [lookupD]
  | cons k ks ih =>
    rw [List.filterMap_cons]
    cases hg : g k with
    | none =>
      rw [show Option.map (fun m => (k, m)) none = none from rfl]
      show lookupD a (ks.filterMap (fun k => (g k).map (fun m => (k, m)))) =
        if a ∈ k :: ks then g a else none
      rw [ih]
      by_cases hak : a = k
      · subst hak
        by_cases ha : a ∈ ks
        · rw [if_pos ha, if_pos (by simp [ha])]
        · rw [if_neg ha, if_pos (by simp), hg]
      · by_cases ha : a ∈ ks
        · rw [if_pos ha, if_pos (by simp [ha])]
        · rw [if_neg ha, if_neg (by simp [hak, ha])]
    | some m =>
      rw [show Option.map (fun m => (k, m)) (some m) = some (k, m) from rfl]
      simp only [lookupD]
      by_cases hak : a = k
      · rw [if_pos hak, if_pos (by simp [hak]), hak, hg]
      · rw [if_neg hak]
        show lookupD a (ks.filterMap (fun k => (g k).map (fun m => (k, m)))) =
          if a ∈ k :: ks then g a else none
        rw [ih]
        by_cases ha : a ∈ ks
        · rw [if_pos ha, if_pos (by simp [ha])]
        · rw [if_neg ha, if_neg (by simp [hak, ha])]

theorem lookupD_lastUsedItems (l : List Entry) (b : List Char) :
    lookupD b (lastUsedItems l) =
      if b ∈ l.map (fun e => e.base_command) then lastUsedVal l b else none := by
  unfold lastUsedItems
  rw [lookupD_filterMap_pair (firstKeys (l.map (fun e => e.base_command))) (lastUsedVal l) b]
  by_cases hb : b ∈ firstKeys (l.map (fun e => e.base_command))
  · rw [if_pos hb, if_pos ((mem_firstKeys _ b).mp hb)]
  · rw [if_neg hb, if_neg (fun h2 => hb ((mem_firstKeys _ b).mpr h2))]

theorem pyMaxAux_mem : ∀ (l : List Int) (a : Int), pyMaxAux a l ∈ a :: l := by
  intro l
  induction l with
  | nil => intro a; simp [pyMaxAux]
  | cons t ts ih =>
    intro a
    have h0 : pyMaxAux a (t :: ts) = pyMaxAux (if t > a then t else a) ts := rfl
    rw [h0]
    have hm := ih (if t > a then t else a)
    simp only [List.mem_cons] at hm
    rcases hm with h | h
    · by_cases ht : t > a
      · rw [if_pos ht] at h ⊢
        rw [h]
        simp
      · rw [if_neg ht] at h ⊢
        rw [h]
        simp
    · simp [List.mem_cons, h]

theorem pyMaxAux_ub : ∀ (l : List Int) (a x : Int), x ∈ a :: l → x ≤ pyMaxAux a l := by
  intro l
  induction l with
  | nil =>
    intro a x hx
    simp only [List.mem_singleton] at hx
    simp [pyMaxAux, hx]
  | cons t ts ih =>
    intro a x hx
    have h0 : pyMaxAux a (t :: ts) = pyMaxAux (if t > a then t else a) ts := rfl
    rw [h0]
    have hbase : a ≤ (if t > a then t else a) ∧ t ≤ (if t > a then t else a) := by
      by_cases ht : t > a
      · rw [if_pos ht]
        omega
      · rw [if_neg ht]
        omega
    have hhead : (if t > a then t else a) ≤ pyMaxAux (if t > a then t else a) ts :=
      ih _ _ (List.mem_cons_self _ _)
    simp only [List.mem_cons] at hx
    rcases hx with hx | hx | hx
    · subst hx
      omega
    · subst hx
      omega
    · exact ih _ x (List.mem_cons_of_mem _ hx)

theorem pyMaxOfList_perm {l1 l2 : List Int} (h : l1.Perm l2) :
    pyMaxOfList l1 = pyMaxOfList l2 := by
  cases hl1 : l1 with
  | nil =>
    have hl2 : l2 = [] := by
      subst hl1
      exact h.symm.eq_nil
    rw [hl2]
  | cons t ts =>
    cases hl2 : l2 with
    | nil =>
      subst hl2
      rw [h.eq_nil] at hl1
      exact absurd hl1 (by simp)
    | cons t2 ts2 =>
      subst hl1
      subst hl2
      show some (pyMaxAux t ts) = some (pyMaxAux t2 ts2)
      have hm1 : pyMaxAux t ts ∈ t2 :: ts2 := h.mem_iff.mp (pyMaxAux_mem ts t)
      have hm2 : pyMaxAux t2 ts2 ∈ t :: ts := h.mem_iff.mpr (pyMaxAux_mem ts2 t2)
      have hle1 : pyMaxAux t ts ≤ pyMaxAux t2 ts2 := pyMaxAux_ub ts2 t2 _ hm1
      have hle2 : pyMaxAux t2 ts2 ≤ pyMaxAux t ts := pyMaxAux_ub ts t _ hm2
      exact congrArg some (by omega)

theorem lastUsedVal_perm {l1 l2 : List Entry} (h : l1.Perm l2) (b : List Char) :
    lastUsedVal l1 b = lastUsedVal l2 b := by
  unfold lastUsedVal
  exact pyMaxOfList_perm ((h.filter _).map _)

theorem dictEq_lastUsedItems {l1 l2 : List Entry} (h : l1.Perm l2) :
    dictEq (lastUsedItems l1) (lastUsedItems l2) := by
  intro b
  rw [lookupD_lastUsedItems, lookupD_lastUsedItems]
  by_cases hb : b ∈ l1.map (fun e => e.base_command)
  · rw [if_pos hb, if_pos ((h.map _).mem_iff.mp hb), lastUsedVal_perm h]
  · rw [if_neg hb, if_neg (fun h2 => hb ((h.map _).mem_iff.mpr h2))]

theorem counterItems_length [DecidableEq κ] (l : List κ) :
    (counterItems l).length = (firstKeys l).length := by
  simp [counterItems]

theorem get_stats_fields_perm {m1 m2 : List Entry} (hp : m1.Perm m2) :
    m1.length = m2.length ∧
    (counterItems (m1.map (fun e => e.base_command))).length =
      (counterItems (m2.map (fun e => e.base_command))).length ∧
    dictEq (counterItems (m1.map (fun e => e.base_command)))
      (counterItems (m2.map (fun e => e.base_command))) ∧
    dictEq (counterItems (m1.map (fun e => e.command)))
      (counterItems (m2.map (fun e => e.command))) ∧
    dictEq (lastUsedItems m1) (lastUsedItems m2) := by
  refine ⟨hp.length_eq, ?_, dictEq_counterItems (hp.map _),
    dictEq_counterItems (hp.map _), dictEq_lastUsedItems hp⟩
  rw [counterItems_length, counterItems_length]
  exact (firstKeys_perm (hp.map _)).length_eq

/-- Claim C8: the statistics computation is deterministic and
order-independent — for a fixed multiset of events (any two orderings of
the same events), the same `now` and the same window, `get_stats`
produces identical results in Python's `==` sense: equal scalar fields
and extensionally equal dicts. -/
theorem claim_C8 (l1 l2 : List Entry) (now : Int) (days : Option Int)
    (h : l1.Perm l2) :
    statsPyEq (get_stats l1 now days) (get_stats l2 now days) := by
  cases days with
  | none =>
    have hf := get_stats_fields_perm h
    exact ⟨hf.1, hf.2.1, hf.2.2.1, hf.2.2.2.1, hf.2.2.2.2, rfl⟩
  | some d =>
    by_cases hd : d ≠ 0
    · have hp : (l1.filter (fun e => e.timestamp ≥ now - timedeltaDays d)).Perm
          (l2.filter (fun e => e.timestamp ≥ now - timedeltaDays d)) := h.filter _
      have hf := get_stats_fields_perm hp
      have h1 : get_stats l1 now (some d) =
          { total_commands := (l1.filter (fun e => e.timestamp ≥ now - timedeltaDays d)).length
            unique_base_commands := (counterItems ((l1.filter (fun e => e.timestamp ≥ now - timedeltaDays d)).map (fun e => e.base_command))).length
            base_command_counts := counterItems ((l1.filter (fun e => e.timestamp ≥ now - timedeltaDays d)).map (fun e => e.base_command))
            full_command_counts := counterItems ((l1.filter (fun e => e.timestamp ≥ now - timedeltaDays d)).map (fun e => e.command))
            last_used := lastUsedItems (l1.filter (fun e => e.timestamp ≥ now - timedeltaDays d))
            period_days := some d } := by
        simp only [get_stats]
        rw [if_pos hd]
      have h2 : get_stats l2 now (some d) =
          { total_commands := (l2.filter (fun e => e.timestamp ≥ now - timedeltaDays d)).length
            unique_base_commands := (counterItems ((l2.filter (fun e => e.timestamp ≥ now - timedeltaDays d)).map (fun e => e.base_command))).length
            base_command_counts := counterItems ((l2.filter (fun e => e.timestamp ≥ now - timedeltaDays d)).map (fun e => e.base_command))
            full_command_counts := counterItems ((l2.filter (fun e => e.timestamp ≥ now - timedeltaDays d)).map (fun e => e.command))
            last_used := lastUsedItems (l2.filter (fun e => e.timestamp ≥ now - timedeltaDays d))
            period_days := some d } := by
        simp only [get_stats]
        rw [if_pos hd]
      rw [h1, h2]
      exact ⟨hf.1, hf.2.1, hf.2.2.1, hf.2.2.2.1, hf.2.2.2.2, rfl⟩
    · have hf := get_stats_fields_perm h
      have h1 : get_stats l1 now (some d) =
          { total_commands := l1.length
            unique_base_commands := (counterItems (l1.map (fun e => e.base_command))).length
            base_command_counts := counterItems (l1.map (fun e => e.base_command))
            full_command_counts := counterItems (l1.map (fun e => e.command))
            last_used := lastUsedItems l1
            period_days := some d } := by
        simp only [get_stats]
        rw [if_neg hd]
      have h2 : get_stats l2 now (some d) =
          { total_commands := l2.length
            unique_base_commands := (counterItems (l2.map (fun e => e.base_command))).length
            base_command_counts := counterItems (l2.map (fun e => e.base_command))
            full_command_counts := counterItems (l2.map (fun e => e.command))
            last_used := lastUsedItems l2
            period_days := some d } := by
        simp only [get_stats]
        rw [if_neg hd]
      rw [h1, h2]
      exact ⟨hf.1, hf.2.1, hf.2.2.1, hf.2.2.2.1, hf.2.2.2.2, rfl⟩

/-- Witness for C8 on two orderings of a concrete two-event multiset. -/
theorem claim_C8_witness :
    statsPyEq
      (get_stats [⟨strL "ls", strL "ls", 5, strL "ls"⟩,
                  ⟨strL "git st", strL "git", 7, strL "git st"⟩] 10 none)
      (get_stats [⟨strL "git st", strL "git", 7, strL "git st"⟩,
                  ⟨strL "ls", strL "ls", 5, strL "ls"⟩] 10 none) :=
  claim_C8 _ _ 10 none (by decide)

theorem insertDescBy_perm (key : α → Nat) (x : α) :
    ∀ l, (insertDescBy key x l).Perm (x :: l) := by
  intro l
  induction l with
  | nil => simp [insertDescBy]
  | cons y ys ih =>
    unfold insertDescBy
    by_cases hk : key y < key x
    · rw [if_pos hk]
    · rw [if_neg hk]
      exact (ih.cons y).trans (List.Perm.swap x y ys)

theorem sortDescBy_perm (key : α → Nat) (l : List α) : (sortDescBy key l).Perm l := by
  unfold sortDescBy
  have haux : ∀ (l acc : List α),
      (l.foldl (fun acc x => insertDescBy key x acc) acc).Perm (acc ++ l) := by
    intro l
    induction l with
    | nil => intro acc; simp
    | cons x xs ih =>
      intro acc
      have h1 : (List.foldl (fun acc x => insertDescBy key x acc) acc (x :: xs)) =
          List.foldl (fun acc x => insertDescBy key x acc) (insertDescBy key x acc) xs := rfl
      rw [h1]
      refine (ih (insertDescBy key x acc)).trans ?_
      refine (List.Perm.append_right xs (insertDescBy_perm key x acc)).trans ?_
      exact List.perm_middle.symm.trans (List.Perm.refl _) |>.symm.symm
  simpa using haux l []

theorem commaFields_length (l : List Char) :
    (commaFields l).length = l.count ',' + 1 := by
  induction l with
  | nil => simp [commaFields]
  | cons c rest ih =>
    unfold commaFields
    by_cases hc : c = ','
    · rw [if_pos hc, hc]
      simp only [List.length_cons, ih, List.count_cons_self]
    · rw [if_neg hc]
      have hne : commaFields rest ≠ [] := by
        intro h
        have hlen := congrArg List.length h
        rw [ih] at hlen
        simp at hlen
      obtain ⟨f, fs, hf⟩ := List.exists_cons_of_ne_nil hne
      rw [hf]
      simp only [List.length_cons]
      have hlen2 : (commaFields rest).length = fs.length + 1 := by
        rw [hf]
        rfl
      rw [ih] at hlen2
      have hcc : List.count ',' (c :: rest) = List.count ',' rest :=
        List.count_cons_of_ne (fun h => hc h.symm) rest
      rw [hcc]
      omega

theorem pair_mem_counterItems [DecidableEq κ] (l : List κ) (a : κ) (h : a ∈ l) :
    (a, countD a l) ∈ counterItems l := by
  unfold counterItems
  exact List.mem_map_of_mem (fun k => (k, countD k l)) ((mem_firstKeys l a).mpr h)

theorem csvRow_mem (commands : List Entry) (now : Int) (p : List Char × Nat)
    (hp : p ∈ counterItems (commands.map (fun x => x.base_command))) :
    csvRow (get_stats commands now none) p ∈ export_csv_lines commands now := by
  apply List.mem_cons_of_mem
  apply List.mem_map_of_mem
  exact (sortDescBy_perm _ _).mem_iff.mpr hp

theorem csvRow_count_ge (stats : Stats) (p : List Char × Nat) :
    3 + p.1.count ',' ≤ (csvRow stats p).count ',' := by
  unfold csvRow
  simp [List.count_append, List.count_cons]
  omega

/-- Claim C10: CSV export performs no quoting or escaping — every data
row joins the raw base_command with the count, percentage and last-used
cells by plain commas, so a stored event whose base_command contains a
comma produces a row with more than four comma-separated fields. -/
theorem claim_C10 (commands : List Entry) (now : Int) (e : Entry)
    (hmem : e ∈ commands) (hcomma : ',' ∈ e.base_command) :
    ∃ row ∈ export_csv_lines commands now, 4 < (commaFields row).length := by
  have hb1 : e.base_command ∈ commands.map (fun x => x.base_command) :=
    List.mem_map_of_mem _ hmem
  have hb3 := pair_mem_counterItems (commands.map (fun x => x.base_command))
    e.base_command hb1
  refine ⟨_, csvRow_mem commands now _ hb3, ?_⟩
  rw [commaFields_length]
  have h1 : 0 < e.base_command.count ',' := List.count_pos_iff.mpr hcomma
  have h2 := csvRow_count_ge (get_stats commands now none)
    (e.base_command, countD e.base_command (commands.map (fun x => x.base_command)))
  simp only at h2
  omega

/-- Witness for C10 at a concrete store whose only base command
contains a comma. -/
theorem claim_C10_witness :
    ∃ row ∈ export_csv_lines [⟨strL "a,b c", strL "a,b", 5, strL "a,b c"⟩] 9,
      4 < (commaFields row).length :=
  claim_C10 [⟨strL "a,b c", strL "a,b", 5, strL "a,b c"⟩] 9
    ⟨strL "a,b c", strL "a,b", 5, strL "a,b c"⟩ (by decide) (by decide)
